import Mathlib

/-!
# FileStack — verification of the content/view model and file-state store

Shallow embedding of the FileStack repository's core:

* the File-State Store (`src/renderer/store.ts` and the later revision of the
  same store that performs disk writes and returns results, `unnamed/part_007`),
* the View Registry (`src/main.ts` `loadFilestackConfig` with the zod
  `ConfigSchema` of `src/shared/types.ts`, and the VS-fork
  `FilestackConfigurationService` of
  `src/vs/workbench/contrib/filestack/common/filestackConfiguration.ts`),
* the Markdown dialect codec (`unnamed/part_006`:
  `parseMarkdownToContent`, `convertContentToMarkdown`, `parseMarkdownFile`,
  `convertViewToMarkdown`, `saveViewContent`).

JavaScript records (plain objects used as string-keyed maps) are embedded as
insertion-ordered association lists whose values are `Option String`: a key
present with value `none` models a property explicitly set to `undefined`
(which `Object.keys` still enumerates, unlike an absent key), matching how
`saveFile` writes `{ ...state.unsavedChanges, [file]: undefined }`.
Strings handled by the codec are embedded as `List Char`; JavaScript string
whitespace (for `trim` and `\s`) is modelled by its ASCII part, which covers
every character the dialect files contain.
-/

namespace Filestack

/-! ## JavaScript record model -/

/-- A JS plain object used as a string-keyed map: insertion-ordered entries,
`none` = property present but set to `undefined`. -/
abbrev JsRecord := List (String × Option String)

/-- Property read `r[k]`: absent key and `undefined` value both read back as
`undefined` (`none`). -/
def jsGet (r : JsRecord) (k : String) : Option String :=
  match r.find? (fun e => e.1 == k) with
  | some e => e.2
  | none => none

/-- Property write `r[k] = v` / `{ ...r, [k]: v }`: updates the entry in place
if the key exists (JS keeps the original insertion position), else appends. -/
def jsSet (r : JsRecord) (k : String) (v : Option String) : JsRecord :=
  match r with
  | [] => [(k, v)]
  | e :: rest => if e.1 == k then (k, v) :: rest else e :: jsSet rest k v

/-- Property delete, as in `const { [file]: removed, ...rest } = obj`. -/
def jsDelete (r : JsRecord) (k : String) : JsRecord :=
  r.filter (fun e => e.1 != k)

/-- `Object.keys(r)`: keys in insertion order, including `undefined`-valued
properties. -/
def jsKeys (r : JsRecord) : List String :=
  r.map (·.1)

/-- `{ ...r1, ...r2 }`: assigns every own key of `r2` over `r1`, including
keys whose value is `undefined`. -/
def jsSpread (r1 r2 : JsRecord) : JsRecord :=
  r2.foldl (fun acc e => jsSet acc e.1 e.2) r1

/-- JS truthiness of a string-or-undefined value: `undefined` and `""` are
falsy. -/
def jsTruthy : Option String → Bool
  | none => false
  | some s => s ≠ ""

/-- `[...new Set(l)]`: de-duplication keeping the first occurrence, in
insertion order. -/
def dedupFirst {α : Type} [DecidableEq α] : List α → List α
  | [] => []
  | x :: xs => x :: (dedupFirst xs).filter (· ≠ x)

/-! ## File-State Store (`src/renderer/store.ts`, `unnamed/part_007`)

The zustand store state that the claims touch: `fileContents` (last saved
content per path), `unsavedChanges` (pending edits per path) and `dirtyFiles`.
-/

structure AppState where
  fileContents : JsRecord
  unsavedChanges : JsRecord
  dirtyFiles : List String
  deriving Repr, DecidableEq

/-- The store's initial state (`fileContents: {}, dirtyFiles: [], unsavedChanges: {}`). -/
def emptyState : AppState := ⟨[], [], []⟩

/-- `setFileContents(file, contents)` — records loaded-from-disk content. -/
def setFileContents (s : AppState) (file contents : String) : AppState :=
  { s with fileContents := jsSet s.fileContents file (some contents) }

/-- `setUnsavedChanges(file, contents)` — records an edit and marks the file
dirty via `[...new Set([...state.dirtyFiles, file])]`. -/
def setUnsavedChanges (s : AppState) (file contents : String) : AppState :=
  { s with
    unsavedChanges := jsSet s.unsavedChanges file (some contents)
    dirtyFiles := dedupFirst (s.dirtyFiles ++ [file]) }

/-- `clearUnsavedChanges(file)` — drops the pending edit and the dirty mark. -/
def clearUnsavedChanges (s : AppState) (file : String) : AppState :=
  { s with
    unsavedChanges := jsDelete s.unsavedChanges file
    dirtyFiles := s.dirtyFiles.filter (fun f => f ≠ file) }

/-- `markFileAsDirty(file)` — adds the file to `dirtyFiles` only. -/
def markFileAsDirty (s : AppState) (file : String) : AppState :=
  { s with dirtyFiles := dedupFirst (s.dirtyFiles ++ [file]) }

/-- `saveFile(file)` of `src/renderer/store.ts` (no disk I/O): when the pending
content is truthy, folds it into `fileContents`, sets the `unsavedChanges`
entry to `undefined` (the key stays) and unmarks dirty; otherwise a no-op. -/
def saveFileLocal (s : AppState) (file : String) : AppState :=
  match jsGet s.unsavedChanges file with
  | some unsavedContent =>
    if unsavedContent ≠ "" then
      { fileContents := jsSet s.fileContents file (some unsavedContent)
        unsavedChanges := jsSet s.unsavedChanges file none
        dirtyFiles := s.dirtyFiles.filter (fun f => f ≠ file) }
    else s
  | none => s

/-- `saveAllFiles()` of `src/renderer/store.ts`: when any key is pending,
spreads all of `unsavedChanges` over `fileContents` and clears both maps. -/
def saveAllFilesLocal (s : AppState) : AppState :=
  if jsKeys s.unsavedChanges ≠ [] then
    { fileContents := jsSpread s.fileContents s.unsavedChanges
      unsavedChanges := []
      dirtyFiles := [] }
  else s

/-- Outcome of the `unnamed/part_007` store operations that talk to disk:
the returned boolean, the store state afterwards, and the paths for which a
disk write was attempted (in order). -/
structure SaveOutcome where
  ok : Bool
  state : AppState
  writes : List String
  deriving Repr, DecidableEq

/-- `saveFile(file)` of `unnamed/part_007`: writes the truthy pending content
to disk (`disk` says whether the write succeeds), folds it in on success,
returns `false` leaving the state unchanged on failure, and returns `true`
without writing when there is no truthy pending content. -/
def saveFileOnDisk (disk : String → Bool) (s : AppState) (file : String) : SaveOutcome :=
  match jsGet s.unsavedChanges file with
  | some unsavedContent =>
    if unsavedContent ≠ "" then
      if disk file then
        { ok := true
          state :=
            { fileContents := jsSet s.fileContents file (some unsavedContent)
              unsavedChanges := jsSet s.unsavedChanges file none
              dirtyFiles := s.dirtyFiles.filter (fun f => f ≠ file) }
          writes := [file] }
      else { ok := false, state := s, writes := [file] }
    else { ok := true, state := s, writes := [] }
  | none => { ok := true, state := s, writes := [] }

/-- The write loop inside `saveAllFiles()` of `unnamed/part_007`: walks
`filesToSave`, skips non-truthy entries, and `return false` aborts the whole
function on the first failed write. Returns whether all writes succeeded and
the attempted writes. -/
def saveLoop (disk : String → Bool) (s : AppState) : List String → Bool × List String
  | [] => (true, [])
  | f :: rest =>
    if jsTruthy (jsGet s.unsavedChanges f) then
      if disk f then
        let r := saveLoop disk s rest
        (r.1, f :: r.2)
      else (false, [f])
    else saveLoop disk s rest

/-- State after the store-update step of `saveAllFiles()` of `unnamed/part_007`
(and of `store.ts`): all of `unsavedChanges` spread over `fileContents`, both
pending maps cleared. -/
def foldAllState (s : AppState) : AppState :=
  { fileContents := jsSpread s.fileContents s.unsavedChanges
    unsavedChanges := []
    dirtyFiles := [] }

/-- `saveAllFiles()` of `unnamed/part_007`: iterates `Object.keys(unsavedChanges)`,
aborts with `false` (store untouched) on the first failed write, and only when
every write succeeded folds the pending map and returns `true`. -/
def saveAllFilesOnDisk (disk : String → Bool) (s : AppState) : SaveOutcome :=
  let filesToSave := jsKeys s.unsavedChanges
  if filesToSave = [] then { ok := true, state := s, writes := [] }
  else
    match saveLoop disk s filesToSave with
    | (true, ws) => { ok := true, state := foldAllState s, writes := ws }
    | (false, ws) => { ok := false, state := s, writes := ws }

/-- `MonacoBlockComponent` in `src/renderer/Editor.tsx` (line 483):
`unsavedChanges[file] !== undefined ? unsavedChanges[file] : fileContents[file]`. -/
def getContent (s : AppState) (file : String) : Option String :=
  match jsGet s.unsavedChanges file with
  | some c => some c
  | none => jsGet s.fileContents file

/-- The paths whose pending entry is truthy, in `Object.keys` order — exactly
the paths the `part_007` save loop tries to write. -/
def truthyKeys (s : AppState) : List String :=
  (jsKeys s.unsavedChanges).filter (fun f => jsTruthy (jsGet s.unsavedChanges f))

/-! ## Record lemmas -/

theorem jsGet_jsSet_self (r : JsRecord) (k : String) (v : Option String) :
    jsGet (jsSet r k v) k = v := by
  induction r with
  | nil => simp [jsSet, jsGet, List.find?]
  | cons e rest ih =>
    by_cases h : e.1 = k
    · simp [jsSet, jsGet, List.find?, h]
    · have hb : (e.1 == k) = false := beq_eq_false_iff_ne.mpr h
      simp only [jsSet, hb, Bool.false_eq_true, if_false]
      simp only [jsGet, List.find?, hb] at ih ⊢
      exact ih

theorem jsGet_jsSet_ne (r : JsRecord) (k k' : String) (v : Option String)
    (h : k' ≠ k) : jsGet (jsSet r k v) k' = jsGet r k' := by
  have hkk : (k == k') = false := beq_eq_false_iff_ne.mpr (Ne.symm h)
  induction r with
  | nil => simp [jsSet, jsGet, List.find?, hkk]
  | cons e rest ih =>
    by_cases he : e.1 = k
    · have hek : (e.1 == k') = false := beq_eq_false_iff_ne.mpr (he ▸ Ne.symm h)
      simp [jsSet, jsGet, List.find?, he, hkk, hek]
    · have hb : (e.1 == k) = false := beq_eq_false_iff_ne.mpr he
      simp only [jsSet, hb, Bool.false_eq_true, if_false]
      by_cases he' : e.1 = k'
      · have hek : (e.1 == k') = true := by simp [he']
        simp [jsGet, List.find?, hek]
      · have hek : (e.1 == k') = false := beq_eq_false_iff_ne.mpr he'
        simp only [jsGet, List.find?, hek] at ih ⊢
        exact ih

theorem jsGet_jsDelete_self (r : JsRecord) (k : String) :
    jsGet (jsDelete r k) k = none := by
  induction r with
  | nil => simp [jsDelete, jsGet]
  | cons e rest ih =>
    by_cases h : e.1 = k
    · have hb : (e.1 != k) = false := by simp [bne, h]
      simpa [jsDelete, List.filter, hb] using ih
    · have hb : (e.1 != k) = true := by simp [bne, h]
      have hb2 : (e.1 == k) = false := beq_eq_false_iff_ne.mpr h
      simp only [jsDelete, List.filter, hb] at ih ⊢
      simp only [jsGet, List.find?, hb2] at ih ⊢
      exact ih

theorem jsGet_jsDelete_ne (r : JsRecord) (k k' : String) (h : k' ≠ k) :
    jsGet (jsDelete r k) k' = jsGet r k' := by
  induction r with
  | nil => simp [jsDelete, jsGet]
  | cons e rest ih =>
    by_cases he : e.1 = k
    · have hb : (e.1 != k) = false := by simp [bne, he]
      have hek : (e.1 == k') = false := beq_eq_false_iff_ne.mpr (he ▸ Ne.symm h)
      simp only [jsDelete, List.filter, hb] at ih ⊢
      simp only [jsGet, List.find?, hek]
      exact ih
    · have hb : (e.1 != k) = true := by simp [bne, he]
      by_cases he' : e.1 = k'
      · have hek : (e.1 == k') = true := by simp [he']
        simp [jsDelete, jsGet, List.filter, List.find?, hb, hek]
      · have hek : (e.1 == k') = false := beq_eq_false_iff_ne.mpr he'
        simp only [jsDelete, List.filter, hb] at ih ⊢
        simp only [jsGet, List.find?, hek] at ih ⊢
        exact ih

theorem mem_dedupFirst {α : Type} [DecidableEq α] (x : α) (l : List α) :
    x ∈ dedupFirst l ↔ x ∈ l := by
  induction l with
  | nil => simp [dedupFirst]
  | cons y ys ih =>
    simp only [dedupFirst, List.mem_cons, List.mem_filter, ih,
      decide_eq_true_eq]
    constructor
    · rintro (rfl | ⟨h, _⟩)
      · exact Or.inl rfl
      · exact Or.inr h
    · rintro (rfl | h)
      · exact Or.inl rfl
      · by_cases hxy : x = y
        · exact Or.inl hxy
        · exact Or.inr ⟨h, hxy⟩

/-! ## The dirty-flag invariant (claim C5) -/

/-- The spec's store invariant `dirty == (unsavedContent is present)`, read at
JS value level: a path is in `dirtyFiles` exactly when its `unsavedChanges`
entry holds a defined string. -/
def dirtyInv (s : AppState) : Prop :=
  ∀ p : String, p ∈ s.dirtyFiles ↔ jsGet s.unsavedChanges p ≠ none

/-- Store states reachable through the operations the claim enumerates
(plus `setFileContents`, the loading entry point), over any disk behavior. -/
inductive Reachable : AppState → Prop
  | init : Reachable emptyState
  | load (s : AppState) (f c : String) : Reachable s → Reachable (setFileContents s f c)
  | edit (s : AppState) (f c : String) : Reachable s → Reachable (setUnsavedChanges s f c)
  | clear (s : AppState) (f : String) : Reachable s → Reachable (clearUnsavedChanges s f)
  | saveLocal (s : AppState) (f : String) : Reachable s → Reachable (saveFileLocal s f)
  | saveAllLocal (s : AppState) : Reachable s → Reachable (saveAllFilesLocal s)
  | saveIO (disk : String → Bool) (s : AppState) (f : String) :
      Reachable s → Reachable (saveFileOnDisk disk s f).state
  | saveAllIO (disk : String → Bool) (s : AppState) :
      Reachable s → Reachable (saveAllFilesOnDisk disk s).state

theorem dirtyInv_empty : dirtyInv emptyState := by
  intro p
  simp [emptyState, jsGet]

theorem dirtyInv_setFileContents (s : AppState) (f c : String) (h : dirtyInv s) :
    dirtyInv (setFileContents s f c) := h

theorem dirtyInv_setUnsavedChanges (s : AppState) (f c : String) (h : dirtyInv s) :
    dirtyInv (setUnsavedChanges s f c) := by
  intro p
  simp only [setUnsavedChanges, mem_dedupFirst, List.mem_append,
    List.mem_singleton]
  by_cases hp : p = f
  · subst hp
    simp [jsGet_jsSet_self]
  · simp [jsGet_jsSet_ne _ _ _ _ hp, hp, h p]

theorem dirtyInv_clearUnsavedChanges (s : AppState) (f : String) (h : dirtyInv s) :
    dirtyInv (clearUnsavedChanges s f) := by
  intro p
  simp only [clearUnsavedChanges, List.mem_filter, decide_eq_true_eq]
  by_cases hp : p = f
  · subst hp
    simp [jsGet_jsDelete_self]
  · simp [jsGet_jsDelete_ne _ _ _ hp, hp, h p]

/-- The successful-single-save state transition preserves the invariant. -/
theorem dirtyInv_foldOne (s : AppState) (f c : String) (h : dirtyInv s) :
    dirtyInv
      { fileContents := jsSet s.fileContents f (some c)
        unsavedChanges := jsSet s.unsavedChanges f none
        dirtyFiles := s.dirtyFiles.filter (fun p => p ≠ f) } := by
  intro p
  simp only [List.mem_filter, decide_eq_true_eq]
  by_cases hp : p = f
  · subst hp
    simp [jsGet_jsSet_self]
  · simp [jsGet_jsSet_ne _ _ _ _ hp, hp, h p]

theorem dirtyInv_saveFileLocal (s : AppState) (f : String) (h : dirtyInv s) :
    dirtyInv (saveFileLocal s f) := by
  unfold saveFileLocal
  match jsGet s.unsavedChanges f with
  | none => exact h
  | some c =>
    by_cases hc : c ≠ ""
    · simpa [hc] using dirtyInv_foldOne s f c h
    · simpa [hc] using h

theorem dirtyInv_foldAll (s : AppState) : dirtyInv (foldAllState s) := by
  intro p
  simp [foldAllState, jsGet]

theorem dirtyInv_saveAllFilesLocal (s : AppState) (h : dirtyInv s) :
    dirtyInv (saveAllFilesLocal s) := by
  unfold saveAllFilesLocal
  split
  · intro p
    simp [jsGet]
  · exact h

theorem dirtyInv_saveFileOnDisk (disk : String → Bool) (s : AppState) (f : String)
    (h : dirtyInv s) : dirtyInv (saveFileOnDisk disk s f).state := by
  unfold saveFileOnDisk
  match jsGet s.unsavedChanges f with
  | none => exact h
  | some c =>
    by_cases hc : c ≠ ""
    · by_cases hd : disk f
      · simpa [hc, hd] using dirtyInv_foldOne s f c h
      · simpa [hc, hd] using h
    · simpa [hc] using h

theorem dirtyInv_saveAllFilesOnDisk (disk : String → Bool) (s : AppState)
    (h : dirtyInv s) : dirtyInv (saveAllFilesOnDisk disk s).state := by
  unfold saveAllFilesOnDisk
  by_cases hk : jsKeys s.unsavedChanges = []
  · simpa [hk] using h
  · simp only [hk, if_false]
    match saveLoop disk s (jsKeys s.unsavedChanges) with
    | (true, ws) => exact dirtyInv_foldAll s
    | (false, ws) => exact h

/-- C5 — Store invariant: in every store state reachable through the claim's
operations (`setUnsavedChanges`, `clearUnsavedChanges`, `saveFile`,
`saveAllFiles` in both the `store.ts` and the `unnamed/part_007` revisions,
plus loading) and for every path, the dirty flag holds exactly when a defined
unsaved content is recorded for that path; each of these operations preserves
the invariant. -/
theorem claim_C5_dirty_invariant (s : AppState) (h : Reachable s) : dirtyInv s := by
  induction h with
  | init => exact dirtyInv_empty
  | load s f c _ ih => exact dirtyInv_setFileContents s f c ih
  | edit s f c _ ih => exact dirtyInv_setUnsavedChanges s f c ih
  | clear s f _ ih => exact dirtyInv_clearUnsavedChanges s f ih
  | saveLocal s f _ ih => exact dirtyInv_saveFileLocal s f ih
  | saveAllLocal s _ ih => exact dirtyInv_saveAllFilesLocal s ih
  | saveIO disk s f _ ih => exact dirtyInv_saveFileOnDisk disk s f ih
  | saveAllIO disk s _ ih => exact dirtyInv_saveAllFilesOnDisk disk s ih

/-- C5 witness: the invariant, via the theorem, at the concrete reachable state
obtained by loading then editing one file. -/
theorem claim_C5_dirty_invariant_witness :
    dirtyInv (setUnsavedChanges (setFileContents emptyState "a.ts" "x") "a.ts" "y") :=
  claim_C5_dirty_invariant _
    (Reachable.edit _ "a.ts" "y" (Reachable.load _ "a.ts" "x" Reachable.init))

/-! ## getContent and the edit/save lifecycle (claim C6) -/

/-- C6 — `getContent` (the `currentContent` read of `Editor.tsx`) prefers the
pending edit over the saved content; consequently, from a fresh store, after
loading `"X"` the path reads `"X"` and is clean, after the edit `"Y"` it reads
`"Y"` and is dirty, and after a successful save (both the `store.ts` revision
and the `unnamed/part_007` revision, the latter reporting success) it reads
`"Y"`, the saved content is `"Y"`, and the path is clean. -/
theorem claim_C6_getContent_sequence (p : String) :
    (getContent (setFileContents emptyState p "X") p = some "X" ∧
      p ∉ (setFileContents emptyState p "X").dirtyFiles) ∧
    (getContent (setUnsavedChanges (setFileContents emptyState p "X") p "Y") p = some "Y" ∧
      p ∈ (setUnsavedChanges (setFileContents emptyState p "X") p "Y").dirtyFiles) ∧
    (getContent (saveFileLocal (setUnsavedChanges (setFileContents emptyState p "X") p "Y") p) p
        = some "Y" ∧
      jsGet (saveFileLocal (setUnsavedChanges (setFileContents emptyState p "X") p "Y") p).fileContents p
        = some "Y" ∧
      p ∉ (saveFileLocal (setUnsavedChanges (setFileContents emptyState p "X") p "Y") p).dirtyFiles) ∧
    ((saveFileOnDisk (fun _ => true) (setUnsavedChanges (setFileContents emptyState p "X") p "Y") p).ok
        = true ∧
      getContent
        (saveFileOnDisk (fun _ => true) (setUnsavedChanges (setFileContents emptyState p "X") p "Y") p).state p
        = some "Y" ∧
      jsGet
        (saveFileOnDisk (fun _ => true) (setUnsavedChanges (setFileContents emptyState p "X") p "Y") p).state.fileContents p
        = some "Y" ∧
      p ∉ (saveFileOnDisk (fun _ => true) (setUnsavedChanges (setFileContents emptyState p "X") p "Y") p).state.dirtyFiles) := by
  simp [getContent, setFileContents, setUnsavedChanges, saveFileLocal, saveFileOnDisk,
    emptyState, jsGet, jsSet, jsKeys, dedupFirst, List.find?, List.filter]

/-! ## Empty-string edits are never saved (claim C10) -/

/-- C10 — when the recorded unsaved content of a path is the empty string,
`saveFile` of `store.ts` is a complete no-op, and `saveFile` of
`unnamed/part_007` performs no disk write, changes nothing (dirty flag
included) and reports success: an edit that empties a file is never saved. -/
theorem claim_C10_empty_edit_never_saved (disk : String → Bool) (s : AppState)
    (f : String) (h : jsGet s.unsavedChanges f = some "") :
    saveFileLocal s f = s ∧
    saveFileOnDisk disk s f = { ok := true, state := s, writes := [] } := by
  unfold saveFileLocal saveFileOnDisk
  rw [h]
  simp

/-- C10 witness: a store holding the empty-string edit `""` for `"a.ts"`,
with a disk that would fail every write; the save still "succeeds" untouched. -/
theorem claim_C10_empty_edit_never_saved_witness :
    jsGet (AppState.mk [("a.ts", some "old")] [("a.ts", some "")] ["a.ts"]).unsavedChanges "a.ts"
      = some "" ∧
    (saveFileLocal (AppState.mk [("a.ts", some "old")] [("a.ts", some "")] ["a.ts"]) "a.ts"
        = AppState.mk [("a.ts", some "old")] [("a.ts", some "")] ["a.ts"] ∧
      saveFileOnDisk (fun _ => false) (AppState.mk [("a.ts", some "old")] [("a.ts", some "")] ["a.ts"]) "a.ts"
        = { ok := true
            state := AppState.mk [("a.ts", some "old")] [("a.ts", some "")] ["a.ts"]
            writes := [] }) :=
  ⟨by decide, claim_C10_empty_edit_never_saved (fun _ => false) _ "a.ts" (by decide)⟩

/-! ## saveAll semantics (claim C2) -/

/-- Closed-form description of the `part_007` write loop: it writes the truthy
pending paths in key order and aborts at the first failing write. -/
theorem saveLoop_eq (disk : String → Bool) (s : AppState) (fs : List String) :
    saveLoop disk s fs =
      match (fs.filter (fun f => jsTruthy (jsGet s.unsavedChanges f))).dropWhile disk with
      | [] => (true, fs.filter (fun f => jsTruthy (jsGet s.unsavedChanges f)))
      | f :: _ =>
        (false, (fs.filter (fun f => jsTruthy (jsGet s.unsavedChanges f))).takeWhile disk ++ [f]) := by
  induction fs with
  | nil => simp [saveLoop]
  | cons f rest ih =>
    by_cases ht : jsTruthy (jsGet s.unsavedChanges f)
    · by_cases hd : disk f
      · simp only [saveLoop, ht, if_true, hd, List.filter_cons, List.dropWhile_cons,
          List.takeWhile_cons, ih]
        cases hdw : (rest.filter (fun f => jsTruthy (jsGet s.unsavedChanges f))).dropWhile disk with
        | nil => simp [hdw]
        | cons g tail => simp [hdw]
      · simp [saveLoop, ht, hd, List.filter_cons, List.dropWhile_cons, List.takeWhile_cons]
    · simp only [saveLoop, ht, if_false, List.filter_cons, ih]
      simp [ht]

/-- C2 (amended) — `saveAllFiles` of `unnamed/part_007` returns a single
boolean, not a per-path result list: it attempts the truthy dirty paths in
order and, at the first failed write, immediately returns `false` with the
store untouched and the remaining paths unattempted; only when every write
succeeds does it fold the pending edits and return `true`. -/
theorem claim_C2_amended_saveAll_stops_at_first_failure (disk : String → Bool) (s : AppState) :
    saveAllFilesOnDisk disk s =
      match (truthyKeys s).dropWhile disk with
      | [] =>
        if jsKeys s.unsavedChanges = [] then { ok := true, state := s, writes := [] }
        else { ok := true, state := foldAllState s, writes := truthyKeys s }
      | f :: _ =>
        { ok := false, state := s, writes := (truthyKeys s).takeWhile disk ++ [f] } := by
  unfold saveAllFilesOnDisk truthyKeys
  by_cases hk : jsKeys s.unsavedChanges = []
  · simp [hk]
  · simp only [hk, if_false, saveLoop_eq]
    cases hdw : ((jsKeys s.unsavedChanges).filter
        (fun f => jsTruthy (jsGet s.unsavedChanges f))).dropWhile disk with
    | nil => simp [hdw, hk]
    | cons g tail => simp [hdw, hk]

/-- Concrete three-dirty-file store for the C2 counterexample. -/
def c2State : AppState :=
  { fileContents := [("a", some "0"), ("b", some "0"), ("c", some "0")]
    unsavedChanges := [("a", some "1"), ("b", some "2"), ("c", some "3")]
    dirtyFiles := ["a", "b", "c"] }

/-- Disk behavior for the C2 counterexample: only the write of `"b"` fails. -/
def c2Disk : String → Bool := fun f => f ≠ "b"

/-- C2 counterexample — with three dirty files `a`, `b`, `c` where only `b`'s
write fails, `saveAllFiles` returns the single boolean `false`, leaves the
store untouched, and never attempts `c`: it does not return a per-path result
list `[ok, IOError, ok]` and does not save the third file. -/
theorem claim_C2_counterexample :
    saveAllFilesOnDisk c2Disk c2State
      = { ok := false, state := c2State, writes := ["a", "b"] } ∧
    "c" ∉ (saveAllFilesOnDisk c2Disk c2State).writes ∧
    jsGet (saveAllFilesOnDisk c2Disk c2State).state.fileContents "c" = some "0" ∧
    "c" ∈ (saveAllFilesOnDisk c2Disk c2State).state.dirtyFiles := by
  decide

/-! ## FilestackConfigurationService
(`src/vs/workbench/contrib/filestack/common/filestackConfiguration.ts`)

JS string primitives are embedded through the character list underlying the
string, so that they compute by kernel reduction. -/

/-- JS `String.prototype.startsWith`. -/
def jsStartsWith (s pre : String) : Bool :=
  pre.toList.isPrefixOf s.toList

/-- JS `String.prototype.endsWith`. -/
def jsEndsWith (s suf : String) : Bool :=
  suf.toList.isSuffixOf s.toList

/-- JS `s.slice(0, -1)`. -/
def jsDropLast (s : String) : String :=
  ⟨s.toList.dropLast⟩

/-- JS `s.slice(1)`. -/
def jsDropFirst (s : String) : String :=
  ⟨s.toList.drop 1⟩

/-- `joinPaths(basePath, relativePath)` — string concatenation with separator
normalization only at the seam; `./` and `../` segments are NOT normalized. -/
def joinPaths (basePath relativePath : String) : String :=
  let base := if jsEndsWith basePath "/" then jsDropLast basePath else basePath
  let relative := if jsStartsWith relativePath "/" then jsDropFirst relativePath else relativePath
  base ++ "/" ++ relative

/-- `resolveFilePath(path, basePath)` — absolute paths verbatim; everything
else (both `./`/`../` and bare relative paths) is joined onto `basePath`. -/
def resolveFilePath (path basePath : String) : String :=
  if jsStartsWith path "/" then path
  else if jsStartsWith path "./" || jsStartsWith path "../" then joinPaths basePath path
  else joinPaths basePath path

/-- `MAX_FILES_IN_STACK` of `filestackConstants.ts`. -/
def MAX_FILES_IN_STACK : Nat := 50

/-- `SUPPORTED_FILE_EXTENSIONS` of `filestackConstants.ts`. -/
def SUPPORTED_FILE_EXTENSIONS : List String :=
  [".ts", ".js", ".tsx", ".jsx", ".json", ".md", ".html", ".css", ".scss", ".less",
   ".py", ".java", ".cpp", ".c", ".h", ".cs", ".php", ".rb", ".go", ".rs", ".swift",
   ".kt", ".scala", ".sql", ".xml", ".yaml", ".yml", ".toml", ".ini", ".cfg", ".conf"]

/-- `getFileExtension`: substring from the last `.` (lowercased), `""` if none. -/
def getFileExtension (filePath : String) : String :=
  let cs := filePath.toList
  if cs.contains '.' then
    ⟨('.' :: (cs.reverse.takeWhile (fun c => c ≠ '.')).reverse).map Char.toLower⟩
  else ""

/-- `isSupportedFileType`. -/
def isSupportedFileType (filePath : String) : Bool :=
  SUPPORTED_FILE_EXTENSIONS.contains (getFileExtension filePath)

/-- `FilestackErrorType` (the members the service uses). -/
inductive FilestackErrorType where
  | invalidConfiguration
  | unsupportedFileType
  deriving Repr, DecidableEq

/-- `FilestackError` (type + message; `filePath`/`originalError` omitted as no
claim reads them). -/
structure FilestackError where
  etype : FilestackErrorType
  message : String
  deriving Repr, DecidableEq

/-- `FilestackConfiguration` as produced by the service. -/
structure FilestackConfiguration where
  title : String
  files : List String
  deriving Repr, DecidableEq

/-- A JSON value, as produced by `JSON.parse`. Numbers are embedded as
integers; no claim depends on non-integral numbers. -/
inductive JValue where
  | null
  | bool (b : Bool)
  | num (n : Int)
  | str (s : String)
  | arr (xs : List JValue)
  | obj (fields : List (String × JValue))

/-- JS property read `v.k` on a parsed JSON value: `undefined` (`none`) unless
`v` is an object with the key. -/
def jLookup (v : JValue) (k : String) : Option JValue :=
  match v with
  | .obj fields =>
    match fields.find? (fun e => e.1 == k) with
    | some e => some e.2
    | none => none
  | _ => none

/-- The `for (const filePath of config.files)` loop of `parseConfiguration`:
rejects non-string entries, resolves the rest. -/
def resolveAll (basePath : String) : List JValue → Except FilestackError (List String)
  | [] => .ok []
  | .str p :: rest =>
    match resolveAll basePath rest with
    | .ok ps => .ok (resolveFilePath p basePath :: ps)
    | .error e => .error e
  | _ :: _ =>
    .error ⟨.invalidConfiguration, "All file paths must be strings"⟩

/-- `parseConfiguration(content, basePath)` after `JSON.parse` succeeded:
the field checks in source order (truthy string title, array `files`,
non-empty, at most `MAX_FILES_IN_STACK`, all strings), then path resolution. -/
def parseConfiguration (config : JValue) (basePath : String) :
    Except FilestackError FilestackConfiguration :=
  match jLookup config "title" with
  | some (.str t) =>
    if t = "" then .error ⟨.invalidConfiguration, "Configuration must have a valid \"title\" field"⟩
    else
      match jLookup config "files" with
      | some (.arr fs) =>
        if fs.length = 0 then
          .error ⟨.invalidConfiguration, "Configuration must have at least one file"⟩
        else if fs.length > MAX_FILES_IN_STACK then
          .error ⟨.invalidConfiguration,
            "Configuration cannot have more than " ++ toString MAX_FILES_IN_STACK ++ " files"⟩
        else
          match resolveAll basePath fs with
          | .ok resolved => .ok ⟨t, resolved⟩
          | .error e => .error e
      | _ => .error ⟨.invalidConfiguration, "Configuration must have a \"files\" array"⟩
  | _ => .error ⟨.invalidConfiguration, "Configuration must have a valid \"title\" field"⟩

/-- `validateConfigurationStructure(configuration)`: duplicate check via
`new Set(files).size !== files.length`, then the per-file extension check. -/
def validateConfigurationStructure (configuration : FilestackConfiguration) :
    List FilestackError :=
  (if (dedupFirst configuration.files).length ≠ configuration.files.length then
    [⟨.invalidConfiguration, "Configuration contains duplicate file paths"⟩]
  else []) ++
  configuration.files.filterMap (fun filePath =>
    if isSupportedFileType filePath then none
    else some ⟨.unsupportedFileType, "Unsupported file type: " ++ filePath⟩)

/-! ## zod `ConfigSchema` (`src/shared/types.ts`) and `loadFilestackConfig`
(`src/main.ts`) -/

/-- Whether a JSON value passes `z.string()`. -/
def isStr : JValue → Bool
  | .str _ => true
  | _ => false

/-- Whether a JSON value passes one branch of `ContentItemSchema`
(`z.union` of the heading / paragraph / monaco / list object schemas). -/
def validContentItem (v : JValue) : Bool :=
  (match jLookup v "type", jLookup v "level", jLookup v "text" with
   | some (.str "heading"), some (.num n), some (.str _) => 1 ≤ n && n ≤ 6
   | _, _, _ => false) ||
  (match jLookup v "type", jLookup v "text" with
   | some (.str "paragraph"), some (.str _) => true
   | _, _ => false) ||
  (match jLookup v "type", jLookup v "file", jLookup v "language", jLookup v "title" with
   | some (.str "monaco"), some (.str _), some (.str _), some (.str _) => true
   | _, _, _, _ => false) ||
  (match jLookup v "type", jLookup v "items" with
   | some (.str "list"), some (.arr xs) => xs.all isStr
   | _, _ => false)

/-- Whether a JSON value passes `ViewSchema` (`title` string, `files` array of
strings, optional `content` array of valid content items). -/
def validView (v : JValue) : Bool :=
  (match jLookup v "title" with
   | some (.str _) => true
   | _ => false) &&
  (match jLookup v "files" with
   | some (.arr xs) => xs.all isStr
   | _ => false) &&
  (match jLookup v "content" with
   | none => true
   | some (.arr xs) => xs.all validContentItem
   | some _ => false)

/-- Whether a parsed config passes `ConfigSchema.safeParse`. -/
def validConfig (v : JValue) : Bool :=
  match jLookup v "views" with
  | some (.arr vs) => vs.all validView
  | _ => false

/-- What `loadFilestackConfig` sends to the renderer over `config-loaded`
(after `JSON.parse` succeeded): on `safeParse` success the validated views, on
failure the raw, unvalidated `config.views` ("Temporarily bypass validation"). -/
inductive ConfigDelivery where
  | validated (views : Option JValue)
  | raw (views : Option JValue)

/-- `loadFilestackConfig` of `src/main.ts`, after reading and `JSON.parse`:
both branches send `config-loaded`; only the success branch has validated the
payload (zod's success payload equals the input views up to stripping of
unknown object keys, which `ConfigDelivery` does not track). -/
def loadFilestackConfig (config : JValue) : ConfigDelivery :=
  if validConfig config then .validated (jLookup config "views")
  else .raw (jLookup config "views")

/-! ## Claim C7 — path resolution -/

/-- C7 — `resolveFilePath` keeps absolute inputs verbatim and joins
workspace-relative inputs onto the base, but an input starting with `./` is
joined verbatim without normalization: `resolve("./f.ts", "/workspace/sub")`
evaluates to `"/workspace/sub/./f.ts"`, not the `"/workspace/sub/f.ts"`
asserted by the claim and by the service's own unit test. -/
theorem claim_C7_path_resolution_eval :
    resolveFilePath "/abs/f.ts" "/workspace" = "/abs/f.ts" ∧
    resolveFilePath "f.ts" "/workspace" = "/workspace/f.ts" ∧
    resolveFilePath "./f.ts" "/workspace/sub" = "/workspace/sub/./f.ts" ∧
    resolveFilePath "./f.ts" "/workspace/sub" ≠ "/workspace/sub/f.ts" := by
  decide

/-! ## Claim C9 — manifest validation limits -/

/-- C9 — a configuration whose `files` array has 51 entries is rejected with
an `INVALID_CONFIGURATION` error whose message names the 50-file limit, and a
configuration with duplicate file paths yields a structured error citing
"duplicate". -/
theorem claim_C9_manifest_limits :
    (∀ (t : String) (fs : List JValue) (basePath : String),
      t ≠ "" → fs.length = 51 →
      parseConfiguration (JValue.obj [("title", .str t), ("files", .arr fs)]) basePath
        = .error ⟨.invalidConfiguration, "Configuration cannot have more than 50 files"⟩) ∧
    (∀ cfg : FilestackConfiguration,
      (dedupFirst cfg.files).length ≠ cfg.files.length →
      FilestackError.mk .invalidConfiguration "Configuration contains duplicate file paths"
        ∈ validateConfigurationStructure cfg) := by
  constructor
  · intro t fs basePath ht hlen
    have h1 : jLookup (JValue.obj [("title", .str t), ("files", .arr fs)]) "title"
        = some (.str t) := rfl
    have h2 : jLookup (JValue.obj [("title", .str t), ("files", .arr fs)]) "files"
        = some (.arr fs) := rfl
    simp only [parseConfiguration, h1, h2]
    rw [if_neg ht, if_neg (by omega : ¬ fs.length = 0),
      if_pos (show fs.length > MAX_FILES_IN_STACK by rw [hlen]; decide)]
    have hmsg : ("Configuration cannot have more than " ++ toString MAX_FILES_IN_STACK ++ " files")
        = "Configuration cannot have more than 50 files" := by decide
    rw [hmsg]
  · intro cfg h
    simp [validateConfigurationStructure, h]

/-- C9 witness: a 51-file configuration is rejected naming the limit, and a
configuration listing `a.ts` twice yields the duplicate error. -/
theorem claim_C9_manifest_limits_witness :
    parseConfiguration
        (JValue.obj [("title", .str "Test Stack"),
          ("files", .arr (List.replicate 51 (.str "f.ts")))]) "/workspace"
      = .error ⟨.invalidConfiguration, "Configuration cannot have more than 50 files"⟩ ∧
    FilestackError.mk .invalidConfiguration "Configuration contains duplicate file paths"
      ∈ validateConfigurationStructure ⟨"Test Stack", ["a.ts", "a.ts"]⟩ :=
  ⟨claim_C9_manifest_limits.1 "Test Stack" _ "/workspace" (by decide) (by simp),
   claim_C9_manifest_limits.2 _ (by decide)⟩

/-! ## Claim C3 — validation bypass in the registry -/

/-- A manifest that fails `ConfigSchema` (its view's `title` is a number and
`files` is missing). -/
def c3BadConfig : JValue :=
  .obj [("views", .arr [.obj [("title", .num 123)]])]

/-- C3 — `loadFilestackConfig` does NOT keep invalid manifests from the
caller: on `safeParse` failure it sends the raw, unvalidated `config.views`
to the renderer ("Temporarily bypass validation and sending raw config"),
so a caller can receive an unvalidated manifest. -/
theorem claim_C3_validation_bypass :
    validConfig c3BadConfig = false ∧
    loadFilestackConfig c3BadConfig
      = .raw (some (.arr [.obj [("title", .num 123)]])) := by
  exact ⟨rfl, rfl⟩

/-! ## Markdown dialect codec (`unnamed/part_006`, `markdownParser.ts`)

Strings are embedded as `List Char`. JS `trim` and the whitespace class `\s`
are modelled by their ASCII part (the characters the dialect files contain). -/

/-- A line of text (no `'\n'` once split). -/
abbrev Line := List Char

/-- ASCII JS whitespace (`trim`, `\s`). -/
def isWsChar (c : Char) : Bool :=
  c = ' ' || c = '\t' || c = '\n' || c = '\r' || c = '\x0b' || c = '\x0c'

/-- JS `String.prototype.trim`. -/
def trimL (l : Line) : Line :=
  (((l.dropWhile isWsChar).reverse).dropWhile isWsChar).reverse

/-- JS `markdown.split('\n')` (`"".split('\n')` is `[""]`). -/
def splitLines : List Char → List Line
  | [] => [[]]
  | c :: rest =>
    let r := splitLines rest
    if c = '\n' then [] :: r
    else (c :: r.headD []) :: r.tail

/-- JS `lines.join('\n')`. -/
def joinLines : List Line → List Char
  | [] => []
  | [l] => l
  | l :: ls => l ++ '\n' :: joinLines ls

/-- The regex `^(#{1,6})\s+(.+)$` applied to a trimmed line, returning the
level and the (re-trimmed, as in `text.trim()`) heading text. -/
def headingMatch (s : Line) : Option (Nat × Line) :=
  let n := (s.takeWhile (fun c => c = '#')).length
  let rest := s.dropWhile (fun c => c = '#')
  if 1 ≤ n && n ≤ 6 then
    match rest with
    | c :: _ =>
      if isWsChar c then
        let t := rest.dropWhile isWsChar
        if t.isEmpty then none else some (n, trimL t)
      else none
    | [] => none
  else none

/-- The regex `^[-*+]\s+(.+)$` applied to a trimmed line, returning the
(re-trimmed, as in `listMatch[1].trim()`) item text. -/
def listMatch (s : Line) : Option Line :=
  match s with
  | c :: rest =>
    if c = '-' || c = '*' || c = '+' then
      match rest with
      | d :: _ =>
        if isWsChar d then
          let t := rest.dropWhile isWsChar
          if t.isEmpty then none else some (trimL t)
        else none
      | [] => none
    else none
  | [] => none

/-- The regex class `\w` (`[A-Za-z0-9_]`). -/
def isWordChar (c : Char) : Bool :=
  c.isAlphanum || c = '_'

/-- The Monaco-block opener regex ``^```(\w+):(.+)$`` applied to a trimmed
line, returning `(language, file)`. -/
def monacoOpen (s : Line) : Option (Line × Line) :=
  if s.take 3 = ['`', '`', '`'] then
    let rest := s.drop 3
    let lang := rest.takeWhile isWordChar
    if lang.isEmpty then none
    else
      match rest.dropWhile isWordChar with
      | ':' :: f => if f.isEmpty then none else some (lang, f)
      | _ => none
  else none

/-- `ContentItem` of `src/shared/types.ts` (`monaco` is the `CodeRef` of the
spec). -/
inductive ContentItem where
  | heading (level : Nat) (text : Line)
  | paragraph (text : Line)
  | monaco (file : Line) (language : Line) (title : Line)
  | list (items : List Line)
  deriving Repr, DecidableEq

/-- The mutable state of `parseMarkdownToContent`'s line loop. -/
structure PState where
  content : List ContentItem
  currentList : List Line
  inMonaco : Bool
  monacoInfo : Option (Line × Line × Line)
  deriving Repr, DecidableEq

/-- Flushing the pending accumulated list, as done before emitting a heading
or paragraph and at end of input. -/
def flushList (content : List ContentItem) (currentList : List Line) : List ContentItem :=
  if currentList.isEmpty then content else content ++ [.list currentList]

/-- One iteration of the `parseMarkdownToContent` loop with the original
branch order: Monaco open (only outside a block), Monaco close, in-block
collection (discarded), heading, list item, non-blank paragraph, blank no-op. -/
def parseStep (st : PState) (line : Line) : PState :=
  let t := trimL line
  if st.inMonaco then
    if t = ['`', '`', '`'] then
      { st with
        inMonaco := false
        content :=
          match st.monacoInfo with
          | some info => st.content ++ [.monaco info.2.1 info.1 info.2.2]
          | none => st.content
        monacoInfo := none }
    else st
  else
    match monacoOpen t with
    | some (language, file) =>
      { st with
        inMonaco := true
        monacoInfo := some (language, file, file ++ (" Editor").toList) }
    | none =>
      match headingMatch t with
      | some (level, text) =>
        { st with
          content := flushList st.content st.currentList ++ [.heading level text]
          currentList := [] }
      | none =>
        match listMatch t with
        | some item => { st with currentList := st.currentList ++ [item] }
        | none =>
          if t.isEmpty then st
          else
            { st with
              content := flushList st.content st.currentList ++ [.paragraph t]
              currentList := [] }

/-- Loop entry state. -/
def initState : PState := ⟨[], [], false, none⟩

/-- `parseMarkdownToContent` after `split('\n')`: fold the loop, then flush
any remaining list. -/
def parseLines (lines : List Line) : List ContentItem :=
  let st := lines.foldl parseStep initState
  flushList st.content st.currentList

/-- `parseMarkdownToContent(markdown)`. -/
def parseMarkdownToContent (markdown : List Char) : List ContentItem :=
  parseLines (splitLines markdown)

/-- The lines `convertContentToMarkdown` pushes for one item. -/
def renderItem : ContentItem → List Line
  | .heading level text => [List.replicate level '#' ++ ' ' :: text]
  | .paragraph text => [text]
  | .monaco file language title =>
      [['`', '`', '`'] ++ language ++ ':' :: file,
       ['/', '/', ' '] ++ title,
       ['`', '`', '`']]
  | .list items => items.map (fun i => '-' :: ' ' :: i)

/-- The full `lines` array of `convertContentToMarkdown`: each item's lines
followed by one blank spacing line. -/
def renderAll : List ContentItem → List Line
  | [] => []
  | item :: rest => renderItem item ++ [[]] ++ renderAll rest

/-- `convertContentToMarkdown(content)`: `lines.join('\n').trim()`. -/
def convertContentToMarkdown (content : List ContentItem) : List Char :=
  trimL (joinLines (renderAll content))

/-- `JSON.stringify` escaping inside a string literal (quote and backslash;
the dialect writes no control characters). -/
def jsonEscape (s : Line) : Line :=
  s.foldr (fun c acc => if c = '"' || c = '\\' then '\\' :: c :: acc else c :: acc) []

/-- The comma-joined quoted members of `JSON.stringify` on a string array. -/
def jsonStrings : List Line → Line
  | [] => []
  | [f] => '"' :: (jsonEscape f ++ ['"'])
  | f :: rest => '"' :: (jsonEscape f ++ '"' :: ',' :: jsonStrings rest)

/-- `JSON.stringify` on an array of strings (`[]` for the empty array). -/
def jsonStringifyStrings (files : List Line) : Line :=
  '[' :: (jsonStrings files ++ [']'])

/-- `convertViewToMarkdown(title, files, content)`: the front-matter block
joined by newlines, then the serialized body. -/
def convertViewToMarkdown (title : Line) (files : List Line)
    (content : List ContentItem) : List Char :=
  joinLines
    [['-', '-', '-'],
     ("title: ").toList ++ title,
     ("files: ").toList ++ jsonStringifyStrings files,
     ['-', '-', '-'],
     []] ++ convertContentToMarkdown content

/-- The Markdown text `saveViewContent` writes: it calls
`convertViewToMarkdown(view.title, [], content)` — the `files` argument is the
empty array literal. -/
def saveViewContentMarkdown (title : Line) (content : List ContentItem) : List Char :=
  convertViewToMarkdown title [] content

/-- Modelled from the spec, for comparison only (the source has no such
computation): "the de-duplicated, first-seen-order list of all CodeRef.file
values in content". -/
def specDerivedFiles (content : List ContentItem) : List Line :=
  dedupFirst (content.filterMap (fun item =>
    match item with
    | .monaco file _ _ => some file
    | _ => none))

/-! ## Line-splitting lemmas -/

theorem splitLines_cons_newline (l t : List Char) (h : '\n' ∉ l) :
    splitLines (l ++ '\n' :: t) = l :: splitLines t := by
  induction l with
  | nil => simp [splitLines]
  | cons c cs ih =>
    have hc : c ≠ '\n' := fun e => h (e ▸ List.mem_cons_self c cs)
    have hcs : '\n' ∉ cs := fun m => h (List.mem_cons_of_mem c m)
    simp only [List.cons_append, splitLines, hc, if_false, List.append_eq]
    rw [ih hcs]
    simp

theorem splitLines_no_newline (l : List Char) (h : '\n' ∉ l) :
    splitLines l = [l] := by
  induction l with
  | nil => rfl
  | cons c cs ih =>
    have hc : c ≠ '\n' := fun e => h (e ▸ List.mem_cons_self c cs)
    have hcs : '\n' ∉ cs := fun m => h (List.mem_cons_of_mem c m)
    simp only [splitLines, ih hcs, hc, if_false]
    simp

/-! ## Claim C8 — blank lines in body parsing -/

theorem parseStep_blank (st : PState) (line : Line)
    (h : trimL line = []) : parseStep st line = st := by
  simp only [parseStep, h]
  cases hm : st.inMonaco <;>
    simp [monacoOpen, headingMatch, listMatch]

/-- C8 (amended) — a blank (all-whitespace) line is a complete no-op of the
body-parsing loop: it does NOT flush the pending accumulated list (only
headings, paragraphs and end of input flush it), so list runs separated by a
blank line merge into one `List` item. -/
theorem claim_C8_amended_blank_line_noop (st : PState) (line : Line)
    (h : trimL line = []) : parseStep st line = st :=
  parseStep_blank st line h

/-- C8 witness: a one-space line leaves the loop state untouched. -/
theorem claim_C8_amended_blank_line_noop_witness :
    parseStep initState [' '] = initState :=
  claim_C8_amended_blank_line_noop initState [' '] (by decide)

/-- C8 counterexample — `"- a\n\n- b"` parses to ONE merged list, not to two
separate `List` items as the claim asserts. -/
theorem claim_C8_counterexample :
    parseMarkdownToContent (("- a\n\n- b").toList) = [.list [['a'], ['b']]] ∧
    parseMarkdownToContent (("- a\n\n- b").toList) ≠ [.list [['a']], .list [['b']]] := by
  decide

/-! ## Claim C4 — the emitted front-matter `files` field -/

/-- C4 (amended) — the Markdown that `saveViewContent` writes always carries
the front-matter line `files: []` (the code passes the empty array literal to
`convertViewToMarkdown`), whatever `CodeRef`s the content holds and whatever
the view's stored `files` value was. -/
theorem claim_C4_amended_files_always_empty (title : Line)
    (content : List ContentItem) (h : '\n' ∉ title) :
    (splitLines (saveViewContentMarkdown title content))[2]?
      = some (("files: []").toList) := by
  have h0 : '\n' ∉ ['-', '-', '-'] := by decide
  have h1 : '\n' ∉ ("title: ").toList ++ title := by
    intro hm
    rcases List.mem_append.mp hm with hm | hm
    · exact absurd hm (by decide)
    · exact h hm
  have h2 : '\n' ∉ ("files: ").toList ++ jsonStringifyStrings ([] : List Line) := by
    decide
  have e : saveViewContentMarkdown title content
      = ['-', '-', '-'] ++ '\n' ::
          ((("title: ").toList ++ title) ++ '\n' ::
            ((("files: ").toList ++ jsonStringifyStrings []) ++ '\n' ::
              (['-', '-', '-'] ++ '\n' :: convertContentToMarkdown content))) := by
    simp [saveViewContentMarkdown, convertViewToMarkdown, joinLines]
  rw [e, splitLines_cons_newline _ _ h0, splitLines_cons_newline _ _ h1,
    splitLines_cons_newline _ _ h2]
  rfl

/-- Concrete content for the C4 counterexample: one `CodeRef` to `a.ts`. -/
def c4Content : List ContentItem :=
  [.monaco ("a.ts").toList ("typescript").toList ("a.ts Editor").toList]

/-- C4 counterexample — for a content holding a `CodeRef` to `a.ts`, the
emitted `files` line is `files: []`, which differs from the line the claim
demands (the de-duplicated first-seen `CodeRef.file` list, here `["a.ts"]`). -/
theorem claim_C4_counterexample :
    (splitLines (saveViewContentMarkdown (("T").toList) c4Content))[2]?
      = some (("files: []").toList) ∧
    specDerivedFiles c4Content = [("a.ts").toList] ∧
    ("files: ").toList ++ jsonStringifyStrings (specDerivedFiles c4Content)
      ≠ ("files: []").toList := by
  decide

/-- C4 witness: the amended theorem at the counterexample's concrete view. -/
theorem claim_C4_amended_files_always_empty_witness :
    (splitLines (saveViewContentMarkdown (("T").toList) c4Content))[2]?
      = some (("files: []").toList) :=
  claim_C4_amended_files_always_empty (("T").toList) c4Content (by decide)

/-! ## Well-formedness for the round-trip law (claim C1)

An item is well-formed when its textual fields are within what the parser's
grammar can reproduce: non-empty, single-line, no edge whitespace, a paragraph
not matching any of the other line forms, a `CodeRef` language made of `\w`
characters and a `CodeRef` title of the `<file> Editor` shape the parser
regenerates. -/

/-- The first and last characters (when any) are not whitespace, so JS `trim`
is the identity. -/
def noEdgeWs (l : Line) : Bool :=
  (match l.head? with
   | none => true
   | some c => !isWsChar c) &&
  (match l.getLast? with
   | none => true
   | some c => !isWsChar c)

/-- A well-formed text fragment (heading text, paragraph, list item, file
path): non-empty, trim-invariant, single-line. -/
def wfText (t : Line) : Bool :=
  !t.isEmpty && noEdgeWs t && !t.contains '\n'

/-- Well-formedness of one content item for the round-trip law. -/
def wfItem : ContentItem → Bool
  | .heading level text => decide (1 ≤ level) && decide (level ≤ 6) && wfText text
  | .paragraph text =>
      wfText text && (monacoOpen text).isNone && (headingMatch text).isNone &&
      (listMatch text).isNone
  | .monaco file language title =>
      wfText file && !language.isEmpty && language.all isWordChar &&
      title == file ++ (" Editor").toList
  | .list items => !items.isEmpty && items.all wfText

/-- Whether an item's first parsed line flushes a pending list (headings and
paragraphs do; Monaco openers and list lines do not). -/
def flushesList : ContentItem → Bool
  | .heading _ _ => true
  | .paragraph _ => true
  | .monaco _ _ _ => false
  | .list _ => false

/-- The adjacency condition forced by the missing flushes: every `List` item
is last or followed by a heading or paragraph (a following `List` would merge
with it, a following `CodeRef` would be emitted before it). -/
def seqOk : List ContentItem → Bool
  | [] => true
  | .list _ :: rest =>
    (match rest with
     | [] => true
     | next :: _ => flushesList next) && seqOk rest
  | _ :: rest => seqOk rest

/-! ### trim lemmas -/

theorem dropWhile_eq_self_of_head (p : Char → Bool) (l : Line)
    (h : ∀ c ∈ l.head?, p c = false) : l.dropWhile p = l := by
  cases l with
  | nil => rfl
  | cons a t =>
    have := h a rfl
    simp [List.dropWhile_cons, this]

theorem noEdgeWs_head (l : Line) (h : noEdgeWs l = true) :
    ∀ c ∈ l.head?, isWsChar c = false := by
  intro c hc
  unfold noEdgeWs at h
  rw [Bool.and_eq_true] at h
  obtain ⟨hh, _⟩ := h
  rw [show l.head? = some c from hc] at hh
  simpa using hh

theorem noEdgeWs_last (l : Line) (h : noEdgeWs l = true) :
    ∀ c ∈ l.getLast?, isWsChar c = false := by
  intro c hc
  unfold noEdgeWs at h
  rw [Bool.and_eq_true] at h
  obtain ⟨_, hl⟩ := h
  rw [show l.getLast? = some c from hc] at hl
  simpa using hl

theorem trimL_eq_self (l : Line) (h : noEdgeWs l = true) : trimL l = l := by
  unfold trimL
  rw [dropWhile_eq_self_of_head _ _ (noEdgeWs_head l h)]
  rw [dropWhile_eq_self_of_head _ _ (fun c hc => by
    rw [List.head?_reverse] at hc
    exact noEdgeWs_last l h c hc)]
  exact List.reverse_reverse l

theorem trimL_append_newline (J : Line) (hne : J ≠ []) (h : noEdgeWs J = true) :
    trimL (J ++ ['\n']) = J := by
  unfold trimL
  have h1 : (J ++ ['\n']).dropWhile isWsChar = J ++ ['\n'] := by
    apply dropWhile_eq_self_of_head
    intro c hc
    rw [List.head?_append_of_ne_nil _ hne] at hc
    exact noEdgeWs_head J h c hc
  rw [h1, List.reverse_append]
  have h2 : (['\n'] : Line).reverse ++ J.reverse = '\n' :: J.reverse := by simp
  rw [h2]
  have h3 : ('\n' :: J.reverse).dropWhile isWsChar = J.reverse.dropWhile isWsChar := by
    simp [List.dropWhile_cons, isWsChar]
  rw [h3]
  have h4 : J.reverse.dropWhile isWsChar = J.reverse := by
    apply dropWhile_eq_self_of_head
    intro c hc
    rw [List.head?_reverse] at hc
    exact noEdgeWs_last J h c hc
  rw [h4, List.reverse_reverse]

theorem takeWhile_append_all (p : Char → Bool) (xs ys : Line)
    (h : ∀ x ∈ xs, p x = true) :
    (xs ++ ys).takeWhile p = xs ++ ys.takeWhile p := by
  induction xs with
  | nil => simp
  | cons a t ih =>
    have ha := h a (List.mem_cons_self a t)
    simp [List.takeWhile_cons, ha, ih (fun x hx => h x (List.mem_cons_of_mem a hx))]

theorem dropWhile_append_all (p : Char → Bool) (xs ys : Line)
    (h : ∀ x ∈ xs, p x = true) :
    (xs ++ ys).dropWhile p = ys.dropWhile p := by
  induction xs with
  | nil => simp
  | cons a t ih =>
    have ha := h a (List.mem_cons_self a t)
    simp [List.dropWhile_cons, ha, ih (fun x hx => h x (List.mem_cons_of_mem a hx))]

theorem wfText_parts (t : Line) (h : wfText t = true) :
    t ≠ [] ∧ noEdgeWs t = true ∧ '\n' ∉ t := by
  unfold wfText at h
  rw [Bool.and_eq_true, Bool.and_eq_true] at h
  obtain ⟨⟨he, hw⟩, hn⟩ := h
  refine ⟨?_, hw, ?_⟩
  · simpa using he
  · simpa using hn

/-! ### matcher evaluation on rendered lines -/

theorem headingMatch_heading (lvl : Nat) (t : Line) (h1 : 1 ≤ lvl) (h6 : lvl ≤ 6)
    (ht : wfText t = true) :
    headingMatch (List.replicate lvl '#' ++ ' ' :: t) = some (lvl, t) := by
  obtain ⟨htne, hw, -⟩ := wfText_parts t ht
  have hall : ∀ x ∈ List.replicate lvl '#', (fun c => decide (c = '#')) x = true := by
    intro x hx
    simp [List.eq_of_mem_replicate hx]
  have e1 : (List.replicate lvl '#' ++ ' ' :: t).takeWhile (fun c => decide (c = '#'))
      = List.replicate lvl '#' := by
    rw [takeWhile_append_all _ _ _ hall]
    simp [List.takeWhile_cons]
  have e2 : (List.replicate lvl '#' ++ ' ' :: t).dropWhile (fun c => decide (c = '#'))
      = ' ' :: t := by
    rw [dropWhile_append_all _ _ _ hall]
    simp [List.dropWhile_cons]
  have e3 : (' ' :: t).dropWhile isWsChar = t := by
    rw [List.dropWhile_cons]
    simp only [show isWsChar ' ' = true from rfl, if_true]
    exact dropWhile_eq_self_of_head _ _ (noEdgeWs_head t hw)
  simp only [headingMatch, e1, e2, e3, List.length_replicate]
  simp [h1, h6, htne, trimL_eq_self t hw, show isWsChar ' ' = true from rfl]

theorem headingMatch_cons_ne (c : Char) (u : Line) (h : c ≠ '#') :
    headingMatch (c :: u) = none := by
  have e : (c :: u).takeWhile (fun c => decide (c = '#')) = [] := by
    simp [List.takeWhile_cons, h]
  simp [headingMatch, e]

theorem monacoOpen_cons_ne (c : Char) (u : Line) (h : c ≠ '`') :
    monacoOpen (c :: u) = none := by
  have e : (c :: u).take 3 ≠ ['`', '`', '`'] := by
    rw [List.take_succ_cons]
    intro he
    injection he with h1 _
    exact h h1
  simp only [monacoOpen]
  rw [if_neg e]

theorem listMatch_dash (j : Line) (h : wfText j = true) :
    listMatch ('-' :: ' ' :: j) = some j := by
  obtain ⟨hjne, hw, -⟩ := wfText_parts j h
  have e : (' ' :: j).dropWhile isWsChar = j := by
    rw [List.dropWhile_cons]
    simp only [show isWsChar ' ' = true from rfl, if_true]
    exact dropWhile_eq_self_of_head _ _ (noEdgeWs_head j hw)
  simp [listMatch, e, hjne, trimL_eq_self j hw,
    show isWsChar ' ' = true from rfl]

theorem listMatch_cons_ne (c : Char) (u : Line) (h1 : c ≠ '-') (h2 : c ≠ '*')
    (h3 : c ≠ '+') : listMatch (c :: u) = none := by
  simp [listMatch, h1, h2, h3]

/-! ### goodness of the rendered lines -/

theorem getLast?_cons_of_ne_nil {α : Type} (a : α) (l : List α) (h : l ≠ []) :
    (a :: l).getLast? = l.getLast? := by
  have := @List.getLast?_append_of_ne_nil _ [a] l h
  simpa using this

theorem getLast?_some {α : Type} (l : List α) (h : l ≠ []) : ∃ c, l.getLast? = some c := by
  induction l with
  | nil => exact absurd rfl h
  | cons a t ih =>
    cases t with
    | nil => exact ⟨a, rfl⟩
    | cons b u =>
      obtain ⟨c, hc⟩ := ih (by simp)
      exact ⟨c, by rw [getLast?_cons_of_ne_nil a _ (by simp), hc]⟩

theorem noEdgeWs_build (l : Line) (c₁ c₂ : Char) (hh : l.head? = some c₁)
    (hl : l.getLast? = some c₂) (h1 : isWsChar c₁ = false)
    (h2 : isWsChar c₂ = false) : noEdgeWs l = true := by
  unfold noEdgeWs
  rw [hh, hl]
  simp [h1, h2]

theorem wfItem_heading_parts (lvl : Nat) (t : Line)
    (h : wfItem (.heading lvl t) = true) :
    1 ≤ lvl ∧ lvl ≤ 6 ∧ wfText t = true := by
  unfold wfItem at h
  rw [Bool.and_eq_true, Bool.and_eq_true] at h
  obtain ⟨⟨h1, h6⟩, ht⟩ := h
  exact ⟨of_decide_eq_true h1, of_decide_eq_true h6, ht⟩

theorem wfItem_paragraph_parts (t : Line) (h : wfItem (.paragraph t) = true) :
    wfText t = true ∧ monacoOpen t = none ∧ headingMatch t = none ∧
    listMatch t = none := by
  unfold wfItem at h
  rw [Bool.and_eq_true, Bool.and_eq_true, Bool.and_eq_true] at h
  obtain ⟨⟨⟨ht, hm⟩, hh⟩, hl⟩ := h
  exact ⟨ht, Option.isNone_iff_eq_none.mp hm, Option.isNone_iff_eq_none.mp hh,
    Option.isNone_iff_eq_none.mp hl⟩

theorem wfItem_monaco_parts (file lang title : Line)
    (h : wfItem (.monaco file lang title) = true) :
    wfText file = true ∧ lang ≠ [] ∧ lang.all isWordChar = true ∧
    title = file ++ (" Editor").toList := by
  unfold wfItem at h
  rw [Bool.and_eq_true, Bool.and_eq_true, Bool.and_eq_true] at h
  obtain ⟨⟨⟨hf, hl⟩, hw⟩, ht⟩ := h
  refine ⟨hf, ?_, hw, by simpa using ht⟩
  simpa using hl

theorem wfItem_list_parts (items : List Line) (h : wfItem (.list items) = true) :
    items ≠ [] ∧ ∀ j ∈ items, wfText j = true := by
  unfold wfItem at h
  rw [Bool.and_eq_true] at h
  obtain ⟨hne, hall⟩ := h
  exact ⟨by simpa using hne, fun j hj => List.all_eq_true.mp hall j hj⟩

theorem goodLine_heading_line (lvl : Nat) (t : Line) (h1 : 1 ≤ lvl)
    (ht : wfText t = true) :
    List.replicate lvl '#' ++ ' ' :: t ≠ [] ∧
    noEdgeWs (List.replicate lvl '#' ++ ' ' :: t) = true ∧
    '\n' ∉ List.replicate lvl '#' ++ ' ' :: t := by
  obtain ⟨htne, hw, hnl⟩ := wfText_parts t ht
  obtain ⟨k, rfl⟩ : ∃ k, lvl = k + 1 := ⟨lvl - 1, by omega⟩
  obtain ⟨c, hc⟩ := getLast?_some t htne
  refine ⟨by simp, ?_, ?_⟩
  · apply noEdgeWs_build _ '#' c
    · rw [List.replicate_succ]
      rfl
    · rw [List.getLast?_append_cons, getLast?_cons_of_ne_nil _ _ htne, hc]
    · rfl
    · exact noEdgeWs_last t hw c hc
  · intro hm
    rcases List.mem_append.mp hm with hm | hm
    · exact absurd (List.eq_of_mem_replicate hm) (by decide)
    · rcases List.mem_cons.mp hm with hm | hm
      · exact absurd hm (by decide)
      · exact hnl hm

theorem goodLine_monaco_open (file lang : Line) (hfne : file ≠ [])
    (hfw : noEdgeWs file = true) (hfnl : '\n' ∉ file) (hlw : lang.all isWordChar = true) :
    (['`', '`', '`'] ++ lang ++ ':' :: file : Line) ≠ [] ∧
    noEdgeWs (['`', '`', '`'] ++ lang ++ ':' :: file) = true ∧
    '\n' ∉ (['`', '`', '`'] ++ lang ++ ':' :: file : Line) := by
  obtain ⟨c, hc⟩ := getLast?_some file hfne
  refine ⟨by simp, ?_, ?_⟩
  · apply noEdgeWs_build _ '`' c
    · rfl
    · rw [show (['`', '`', '`'] ++ lang ++ ':' :: file : Line)
          = ['`', '`', '`'] ++ (lang ++ ':' :: file) by simp,
        List.getLast?_append_of_ne_nil _ (by simp), List.getLast?_append_cons,
        getLast?_cons_of_ne_nil _ _ hfne, hc]
    · rfl
    · exact noEdgeWs_last file hfw c hc
  · intro hm
    rcases List.mem_append.mp hm with hm | hm
    · rcases List.mem_append.mp hm with hm | hm
      · exact absurd hm (by decide)
      · have := List.all_eq_true.mp hlw _ hm
        exact absurd this (by decide)
    · rcases List.mem_cons.mp hm with hm | hm
      · exact absurd hm (by decide)
      · exact hfnl hm

theorem goodLine_monaco_mid (file : Line) (hfnl : '\n' ∉ file) :
    (['/', '/', ' '] ++ (file ++ (" Editor").toList) : Line) ≠ [] ∧
    noEdgeWs (['/', '/', ' '] ++ (file ++ (" Editor").toList)) = true ∧
    '\n' ∉ (['/', '/', ' '] ++ (file ++ (" Editor").toList) : Line) := by
  refine ⟨by simp, ?_, ?_⟩
  · apply noEdgeWs_build _ '/' 'r'
    · rfl
    · rw [List.getLast?_append_of_ne_nil _ (by simp),
        List.getLast?_append_of_ne_nil _ (by simp [String.toList])]
      rfl
    · rfl
    · rfl
  · intro hm
    rcases List.mem_append.mp hm with hm | hm
    · exact absurd hm (by decide)
    · rcases List.mem_append.mp hm with hm | hm
      · exact hfnl hm
      · exact absurd hm (by decide)

theorem goodLine_list_line (j : Line) (hj : wfText j = true) :
    ('-' :: ' ' :: j : Line) ≠ [] ∧ noEdgeWs ('-' :: ' ' :: j) = true ∧
    '\n' ∉ ('-' :: ' ' :: j : Line) := by
  obtain ⟨hjne, hw, hnl⟩ := wfText_parts j hj
  obtain ⟨c, hc⟩ := getLast?_some j hjne
  refine ⟨by simp, ?_, ?_⟩
  · apply noEdgeWs_build _ '-' c
    · rfl
    · rw [getLast?_cons_of_ne_nil _ _ (by simp), getLast?_cons_of_ne_nil _ _ hjne, hc]
    · rfl
    · exact noEdgeWs_last j hw c hc
  · intro hm
    rcases List.mem_cons.mp hm with hm | hm
    · exact absurd hm (by decide)
    · rcases List.mem_cons.mp hm with hm | hm
      · exact absurd hm (by decide)
      · exact hnl hm

/-- Every line rendered for a well-formed item is non-empty with non-whitespace
edges and newline-free. -/
theorem renderItem_good (i : ContentItem) (h : wfItem i = true) :
    ∀ l ∈ renderItem i, l ≠ [] ∧ noEdgeWs l = true ∧ '\n' ∉ l := by
  cases i with
  | heading lvl t =>
    obtain ⟨h1, _, ht⟩ := wfItem_heading_parts lvl t h
    intro l hl
    rw [show renderItem (.heading lvl t) = [List.replicate lvl '#' ++ ' ' :: t] from rfl,
      List.mem_singleton] at hl
    subst hl
    exact goodLine_heading_line lvl t h1 ht
  | paragraph t =>
    obtain ⟨ht, -, -, -⟩ := wfItem_paragraph_parts t h
    obtain ⟨htne, hw, hnl⟩ := wfText_parts t ht
    intro l hl
    rw [show renderItem (.paragraph t) = [t] from rfl, List.mem_singleton] at hl
    subst hl
    exact ⟨htne, hw, hnl⟩
  | monaco file lang title =>
    obtain ⟨hf, hlne, hlw, htitle⟩ := wfItem_monaco_parts file lang title h
    obtain ⟨hfne, hfw, hfnl⟩ := wfText_parts file hf
    subst htitle
    intro l hl
    rw [show renderItem (.monaco file lang (file ++ (" Editor").toList))
        = [['`', '`', '`'] ++ lang ++ ':' :: file,
           ['/', '/', ' '] ++ (file ++ (" Editor").toList),
           ['`', '`', '`']] from rfl] at hl
    rcases List.mem_cons.mp hl with hl | hl
    · subst hl
      exact goodLine_monaco_open file lang hfne hfw hfnl hlw
    · rcases List.mem_cons.mp hl with hl | hl
      · subst hl
        exact goodLine_monaco_mid file hfnl
      · rw [List.mem_singleton] at hl
        subst hl
        exact ⟨by simp, by decide, by decide⟩
  | list items =>
    obtain ⟨-, hall⟩ := wfItem_list_parts items h
    intro l hl
    rw [show renderItem (.list items) = items.map (fun i => '-' :: ' ' :: i) from rfl,
      List.mem_map] at hl
    obtain ⟨j, hj, rfl⟩ := hl
    exact goodLine_list_line j (hall j hj)

theorem monacoOpen_opener (lang file : Line) (hl : lang ≠ [])
    (hw : lang.all isWordChar = true) (hf : file ≠ []) :
    monacoOpen (['`', '`', '`'] ++ lang ++ ':' :: file) = some (lang, file) := by
  have hall : ∀ x ∈ lang, isWordChar x = true := by
    intro x hx
    exact List.all_eq_true.mp hw x hx
  have e0 : ((['`', '`', '`'] ++ lang ++ ':' :: file) : Line).take 3 = ['`', '`', '`'] := by
    simp [List.take_succ_cons]
  have e1 : ((['`', '`', '`'] ++ lang ++ ':' :: file) : Line).drop 3 = lang ++ ':' :: file := by
    simp
  have e2 : (lang ++ ':' :: file).takeWhile isWordChar = lang := by
    rw [takeWhile_append_all _ _ _ hall]
    simp [List.takeWhile_cons, show isWordChar ':' = false from rfl]
  have e3 : (lang ++ ':' :: file).dropWhile isWordChar = ':' :: file := by
    rw [dropWhile_append_all _ _ _ hall]
    simp [List.dropWhile_cons, show isWordChar ':' = false from rfl]
  simp [monacoOpen, e0, e1, e2, e3, hl, hf]

/-! ### one-line steps of the loop on rendered lines -/

theorem parseStep_heading_line (acc : List ContentItem) (cur : List Line)
    (lvl : Nat) (t : Line) (h1 : 1 ≤ lvl) (h6 : lvl ≤ 6) (ht : wfText t = true) :
    parseStep ⟨acc, cur, false, none⟩ (List.replicate lvl '#' ++ ' ' :: t)
      = ⟨flushList acc cur ++ [.heading lvl t], [], false, none⟩ := by
  have hg := goodLine_heading_line lvl t h1 ht
  have htr := trimL_eq_self _ hg.2.1
  have hmo : monacoOpen (List.replicate lvl '#' ++ ' ' :: t) = none := by
    obtain ⟨k, rfl⟩ : ∃ k, lvl = k + 1 := ⟨lvl - 1, by omega⟩
    rw [List.replicate_succ, List.cons_append]
    exact monacoOpen_cons_ne _ _ (by decide)
  have hhm := headingMatch_heading lvl t h1 h6 ht
  simp only [parseStep, htr, hmo, hhm, Bool.false_eq_true, if_false]

theorem parseStep_paragraph_line (acc : List ContentItem) (cur : List Line)
    (t : Line) (hp : wfItem (.paragraph t) = true) :
    parseStep ⟨acc, cur, false, none⟩ t
      = ⟨flushList acc cur ++ [.paragraph t], [], false, none⟩ := by
  obtain ⟨ht, hmo, hhm, hlm⟩ := wfItem_paragraph_parts t hp
  obtain ⟨htne, hw, -⟩ := wfText_parts t ht
  have htr := trimL_eq_self t hw
  have hie : t.isEmpty = false := by
    cases t with
    | nil => exact absurd rfl htne
    | cons a u => rfl
  simp only [parseStep, htr, hmo, hhm, hlm, hie, Bool.false_eq_true, if_false]

theorem parseStep_list_line (acc : List ContentItem) (cur : List Line)
    (j : Line) (hj : wfText j = true) :
    parseStep ⟨acc, cur, false, none⟩ ('-' :: ' ' :: j)
      = ⟨acc, cur ++ [j], false, none⟩ := by
  have hg := goodLine_list_line j hj
  have htr := trimL_eq_self _ hg.2.1
  have hmo := monacoOpen_cons_ne '-' (' ' :: j) (by decide)
  have hhm := headingMatch_cons_ne '-' (' ' :: j) (by decide)
  have hlm := listMatch_dash j hj
  simp only [parseStep, htr, hmo, hhm, hlm, Bool.false_eq_true, if_false]

theorem parseStep_monaco_open_line (acc : List ContentItem) (cur : List Line)
    (lang file : Line) (hlne : lang ≠ []) (hlw : lang.all isWordChar = true)
    (hf : wfText file = true) :
    parseStep ⟨acc, cur, false, none⟩ (['`', '`', '`'] ++ lang ++ ':' :: file)
      = ⟨acc, cur, true, some (lang, file, file ++ (" Editor").toList)⟩ := by
  obtain ⟨hfne, hfw, hfnl⟩ := wfText_parts file hf
  have hg := goodLine_monaco_open file lang hfne hfw hfnl hlw
  have htr := trimL_eq_self _ hg.2.1
  have hmo := monacoOpen_opener lang file hlne hlw hfne
  simp only [parseStep, htr, hmo, Bool.false_eq_true, if_false]

theorem parseStep_monaco_mid (st : PState) (line : Line) (hin : st.inMonaco = true)
    (h : trimL line ≠ ['`', '`', '`']) : parseStep st line = st := by
  simp only [parseStep, hin, if_true]
  rw [if_neg h]

theorem parseStep_monaco_close (acc : List ContentItem) (cur : List Line)
    (info : Line × Line × Line) :
    parseStep ⟨acc, cur, true, some info⟩ ['`', '`', '`']
      = ⟨acc ++ [.monaco info.2.1 info.1 info.2.2], cur, false, none⟩ := by
  have htr : trimL ['`', '`', '`'] = ['`', '`', '`'] := by decide
  simp only [parseStep, htr, if_true]

/-! ### item-level runs of the loop -/

theorem foldl_monaco_item (acc : List ContentItem) (file lang title : Line)
    (h : wfItem (.monaco file lang title) = true) :
    (renderItem (.monaco file lang title)).foldl parseStep ⟨acc, [], false, none⟩
      = ⟨acc ++ [.monaco file lang title], [], false, none⟩ := by
  obtain ⟨hf, hlne, hlw, htitle⟩ := wfItem_monaco_parts file lang title h
  obtain ⟨hfne, hfw, hfnl⟩ := wfText_parts file hf
  subst htitle
  have hmid : trimL (['/', '/', ' '] ++ (file ++ (" Editor").toList))
      = ['/', '/', ' '] ++ (file ++ (" Editor").toList) :=
    trimL_eq_self _ (goodLine_monaco_mid file hfnl).2.1
  have hmidne : trimL (['/', '/', ' '] ++ (file ++ (" Editor").toList))
      ≠ ['`', '`', '`'] := by
    rw [hmid]
    intro he
    simp at he
  show List.foldl parseStep _
      [['`', '`', '`'] ++ lang ++ ':' :: file,
       ['/', '/', ' '] ++ (file ++ (" Editor").toList),
       ['`', '`', '`']] = _
  simp only [List.foldl_cons, List.foldl_nil]
  rw [parseStep_monaco_open_line acc [] lang file hlne hlw hf]
  rw [parseStep_monaco_mid _ _ rfl hmidne]
  rw [parseStep_monaco_close acc [] (lang, file, file ++ (" Editor").toList)]

theorem foldl_list_lines (js : List Line) :
    ∀ (acc : List ContentItem) (cur : List Line),
    (∀ j ∈ js, wfText j = true) →
    (js.map (fun i => '-' :: ' ' :: i)).foldl parseStep ⟨acc, cur, false, none⟩
      = ⟨acc, cur ++ js, false, none⟩ := by
  induction js with
  | nil =>
    intro acc cur _
    simp
  | cons j js' ih =>
    intro acc cur h
    simp only [List.map_cons, List.foldl_cons]
    rw [parseStep_list_line acc cur j (h j (List.mem_cons_self j js'))]
    rw [ih acc (cur ++ [j]) (fun x hx => h x (List.mem_cons_of_mem _ hx))]
    simp

/-! ### assembling the serialized body -/

/-- The serialized body without its final spacing line: the items' lines with
one blank separator between consecutive items. -/
def bodyLines : List ContentItem → List Line
  | [] => []
  | [i] => renderItem i
  | i :: rest => renderItem i ++ [] :: bodyLines rest

/-- End-of-input flush of the loop state. -/
def finishParse (st : PState) : List ContentItem :=
  flushList st.content st.currentList

theorem renderAll_eq_bodyLines (content : List ContentItem) (h : content ≠ []) :
    renderAll content = bodyLines content ++ [[]] := by
  induction content with
  | nil => exact absurd rfl h
  | cons i rest ih =>
    cases rest with
    | nil => simp [renderAll, bodyLines]
    | cons r rs =>
      show renderItem i ++ [[]] ++ renderAll (r :: rs)
        = (renderItem i ++ [] :: bodyLines (r :: rs)) ++ [[]]
      rw [ih (by simp)]
      simp

theorem joinLines_append_blank (L : List Line) (h : L ≠ []) :
    joinLines (L ++ [[]]) = joinLines L ++ ['\n'] := by
  induction L with
  | nil => exact absurd rfl h
  | cons l ls ih =>
    cases ls with
    | nil => rfl
    | cons m ms =>
      show joinLines (l :: ((m :: ms) ++ [[]])) = _
      have e1 : joinLines (l :: ((m :: ms) ++ [[]])) = l ++ '\n' :: joinLines ((m :: ms) ++ [[]]) := rfl
      rw [e1, ih (by simp)]
      simp [joinLines]

theorem splitLines_joinLines (L : List Line) (hn : ∀ l ∈ L, '\n' ∉ l)
    (h : L ≠ []) : splitLines (joinLines L) = L := by
  induction L with
  | nil => exact absurd rfl h
  | cons l ls ih =>
    cases ls with
    | nil =>
      show splitLines l = [l]
      exact splitLines_no_newline l (hn l (List.mem_cons_self l []))
    | cons m ms =>
      show splitLines (l ++ '\n' :: joinLines (m :: ms)) = l :: m :: ms
      rw [splitLines_cons_newline _ _ (hn l (List.mem_cons_self l _))]
      rw [ih (fun x hx => hn x (List.mem_cons_of_mem l hx)) (by simp)]

theorem head?_joinLines (l : Line) (L : List Line) (hl : l ≠ []) :
    (joinLines (l :: L)).head? = l.head? := by
  cases L with
  | nil => rfl
  | cons m ms => exact List.head?_append_of_ne_nil l hl

theorem getLast?_joinLines (L : List Line) (l : Line) (h : L.getLast? = some l)
    (hne : l ≠ []) : (joinLines L).getLast? = l.getLast? := by
  induction L with
  | nil => simp at h
  | cons x ls ih =>
    cases ls with
    | nil =>
      obtain rfl : x = l := by simpa using h
      rfl
    | cons m ms =>
      have h' : (m :: ms).getLast? = some l := by
        rw [← h]
        exact (getLast?_cons_of_ne_nil x (m :: ms) (by simp)).symm
      have hJ : (joinLines (m :: ms)).getLast? = l.getLast? := ih h'
      have hJne : joinLines (m :: ms) ≠ [] := by
        intro he
        rw [he] at hJ
        obtain ⟨c, hc⟩ := getLast?_some l hne
        rw [hc] at hJ
        simp at hJ
      show (x ++ '\n' :: joinLines (m :: ms)).getLast? = l.getLast?
      rw [List.getLast?_append_of_ne_nil _ (by simp),
        getLast?_cons_of_ne_nil '\n' _ hJne]
      exact hJ

theorem renderItem_ne_nil (i : ContentItem) (h : wfItem i = true) :
    renderItem i ≠ [] := by
  cases i with
  | heading lvl t => simp [renderItem]
  | paragraph t => simp [renderItem]
  | monaco file lang title => simp [renderItem]
  | list items =>
    obtain ⟨hne, -⟩ := wfItem_list_parts items h
    simp [renderItem, hne]

theorem bodyLines_ne_nil (items : List ContentItem) (h : items ≠ [])
    (hwf : ∀ i ∈ items, wfItem i = true) : bodyLines items ≠ [] := by
  cases items with
  | nil => exact absurd rfl h
  | cons i rest =>
    cases rest with
    | nil => exact renderItem_ne_nil i (hwf i (List.mem_cons_self i []))
    | cons r rs =>
      show renderItem i ++ [] :: bodyLines (r :: rs) ≠ []
      simp

theorem bodyLines_head? (i : ContentItem) (rest : List ContentItem)
    (h : renderItem i ≠ []) :
    (bodyLines (i :: rest)).head? = (renderItem i).head? := by
  cases rest with
  | nil => rfl
  | cons r rs => exact List.head?_append_of_ne_nil _ h

theorem bodyLines_getLast? (items : List ContentItem) (h : items ≠ [])
    (hwf : ∀ i ∈ items, wfItem i = true) :
    ∃ j ∈ items, (bodyLines items).getLast? = (renderItem j).getLast? := by
  induction items with
  | nil => exact absurd rfl h
  | cons i rest ih =>
    cases rest with
    | nil => exact ⟨i, List.mem_cons_self i [], rfl⟩
    | cons r rs =>
      obtain ⟨j, hj, hlast⟩ :=
        ih (by simp) (fun x hx => hwf x (List.mem_cons_of_mem i hx))
      refine ⟨j, List.mem_cons_of_mem i hj, ?_⟩
      show (renderItem i ++ [] :: bodyLines (r :: rs)).getLast? = _
      rw [List.getLast?_append_of_ne_nil _ (by simp),
        getLast?_cons_of_ne_nil [] _
          (bodyLines_ne_nil (r :: rs) (by simp)
            (fun x hx => hwf x (List.mem_cons_of_mem i hx)))]
      exact hlast

theorem bodyLines_no_newline (items : List ContentItem)
    (hwf : ∀ i ∈ items, wfItem i = true) :
    ∀ l ∈ bodyLines items, '\n' ∉ l := by
  induction items with
  | nil => intro l hl; simp [bodyLines] at hl
  | cons i rest ih =>
    intro l hl
    cases rest with
    | nil =>
      exact (renderItem_good i (hwf i (List.mem_cons_self i [])) l hl).2.2
    | cons r rs =>
      rw [show bodyLines (i :: r :: rs) = renderItem i ++ [] :: bodyLines (r :: rs)
        from rfl] at hl
      rcases List.mem_append.mp hl with hl | hl
      · exact (renderItem_good i (hwf i (List.mem_cons_self i _)) l hl).2.2
      · rcases List.mem_cons.mp hl with hl | hl
        · subst hl; simp
        · exact ih (fun x hx => hwf x (List.mem_cons_of_mem i hx)) l hl

/-! ### running the loop over a well-formed body -/

/-- The body-parsing loop, run over the serialized lines of a well-formed,
adjacency-respecting item sequence from a state with any pending list that the
first item (when flushing) may still flush, reconstructs the sequence. -/
theorem runBody : ∀ (items : List ContentItem) (acc : List ContentItem)
    (pend : List Line),
    (∀ i ∈ items, wfItem i = true) → seqOk items = true →
    (pend = [] ∨ match items with
      | [] => True
      | i :: _ => flushesList i = true) →
    finishParse ((bodyLines items).foldl parseStep ⟨acc, pend, false, none⟩)
      = flushList acc pend ++ items := by
  intro items
  induction items with
  | nil =>
    intro acc pend _ _ _
    simp [bodyLines, finishParse]
  | cons i rest ih =>
    intro acc pend hwf hseq hpend
    have hwf_i := hwf i (List.mem_cons_self i rest)
    have hwf_rest : ∀ x ∈ rest, wfItem x = true :=
      fun x hx => hwf x (List.mem_cons_of_mem i hx)
    cases i with
    | heading lvl t =>
      obtain ⟨h1, h6, ht⟩ := wfItem_heading_parts lvl t hwf_i
      have hseq' : seqOk rest = true := by simpa [seqOk] using hseq
      cases rest with
      | nil =>
        show finishParse (List.foldl parseStep _
          [List.replicate lvl '#' ++ ' ' :: t]) = _
        simp only [List.foldl_cons, List.foldl_nil]
        rw [parseStep_heading_line acc pend lvl t h1 h6 ht]
        simp [finishParse, flushList]
      | cons r rs =>
        show finishParse (List.foldl parseStep _
          ((List.replicate lvl '#' ++ ' ' :: t) :: [] :: bodyLines (r :: rs))) = _
        simp only [List.foldl_cons]
        rw [parseStep_heading_line acc pend lvl t h1 h6 ht,
          parseStep_blank _ [] rfl]
        rw [ih (flushList acc pend ++ [ContentItem.heading lvl t]) [] hwf_rest hseq' (Or.inl rfl)]
        simp [flushList]
    | paragraph t =>
      have hseq' : seqOk rest = true := by simpa [seqOk] using hseq
      cases rest with
      | nil =>
        show finishParse (List.foldl parseStep _ [t]) = _
        simp only [List.foldl_cons, List.foldl_nil]
        rw [parseStep_paragraph_line acc pend t hwf_i]
        simp [finishParse, flushList]
      | cons r rs =>
        show finishParse (List.foldl parseStep _
          (t :: [] :: bodyLines (r :: rs))) = _
        simp only [List.foldl_cons]
        rw [parseStep_paragraph_line acc pend t hwf_i,
          parseStep_blank _ [] rfl]
        rw [ih (flushList acc pend ++ [ContentItem.paragraph t]) [] hwf_rest hseq' (Or.inl rfl)]
        simp [flushList]
    | monaco file lang title =>
      have hpend0 : pend = [] := by
        rcases hpend with h | h
        · exact h
        · exact absurd h (by simp [flushesList])
      subst hpend0
      have hseq' : seqOk rest = true := by simpa [seqOk] using hseq
      cases rest with
      | nil =>
        show finishParse (List.foldl parseStep ⟨acc, [], false, none⟩
          (renderItem (.monaco file lang title))) = _
        rw [foldl_monaco_item acc file lang title hwf_i]
        simp [finishParse, flushList]
      | cons r rs =>
        show finishParse (List.foldl parseStep ⟨acc, [], false, none⟩
          (renderItem (.monaco file lang title) ++ [] :: bodyLines (r :: rs))) = _
        rw [List.foldl_append]
        rw [foldl_monaco_item acc file lang title hwf_i]
        simp only [List.foldl_cons]
        rw [parseStep_blank _ [] rfl]
        rw [ih (acc ++ [ContentItem.monaco file lang title]) [] hwf_rest hseq' (Or.inl rfl)]
        simp [flushList]
    | list js =>
      have hpend0 : pend = [] := by
        rcases hpend with h | h
        · exact h
        · exact absurd h (by simp [flushesList])
      subst hpend0
      obtain ⟨hne_js, hall⟩ := wfItem_list_parts js hwf_i
      have hjse : js.isEmpty = false := by
        cases js with
        | nil => exact absurd rfl hne_js
        | cons a u => rfl
      cases rest with
      | nil =>
        show finishParse (List.foldl parseStep ⟨acc, [], false, none⟩
          (js.map (fun i => '-' :: ' ' :: i))) = _
        rw [foldl_list_lines js acc [] hall]
        simp [finishParse, flushList, hjse]
      | cons r rs =>
        have hparts : flushesList r = true ∧ seqOk (r :: rs) = true := by
          simpa [seqOk, Bool.and_eq_true] using hseq
        show finishParse (List.foldl parseStep ⟨acc, [], false, none⟩
          (js.map (fun i => '-' :: ' ' :: i) ++ [] :: bodyLines (r :: rs))) = _
        rw [List.foldl_append]
        rw [foldl_list_lines js acc [] hall]
        simp only [List.foldl_cons, List.nil_append]
        rw [parseStep_blank _ [] rfl]
        rw [ih acc js hwf_rest hparts.2 (Or.inr (by
          show flushesList r = true
          exact hparts.1))]
        simp [flushList, hjse]

/-! ### the round-trip law (claim C1) -/

theorem mem_of_getLast?_eq {α : Type} (l : List α) (a : α)
    (h : l.getLast? = some a) : a ∈ l := by
  induction l with
  | nil => simp at h
  | cons x t ih =>
    cases t with
    | nil =>
      have hx : x = a := by simpa using h
      rw [← hx]
      exact List.mem_cons_self x []
    | cons y u =>
      rw [getLast?_cons_of_ne_nil x _ (by simp)] at h
      exact List.mem_cons_of_mem x (ih h)

theorem mem_of_head?_eq {α : Type} (l : List α) (a : α)
    (h : l.head? = some a) : a ∈ l := by
  cases l with
  | nil => simp at h
  | cons x t =>
    have hx : x = a := by simpa using h
    rw [← hx]
    exact List.mem_cons_self x t

/-- C1 (amended) — lossy-aware round trip: for every content sequence of
well-formed items (per `wfItem`) in which no `List` item is immediately
followed by another `List` or by a `CodeRef` (per `seqOk`), re-parsing the
serialized Markdown body yields exactly the original sequence. -/
theorem claim_C1_amended_roundtrip (content : List ContentItem)
    (hwf : ∀ i ∈ content, wfItem i = true) (hseq : seqOk content = true) :
    parseMarkdownToContent (convertContentToMarkdown content) = content := by
  cases content with
  | nil => rfl
  | cons i rest =>
    have hwf_i := hwf i (List.mem_cons_self i rest)
    have hri_ne : renderItem i ≠ [] := renderItem_ne_nil i hwf_i
    have hLne : bodyLines (i :: rest) ≠ [] :=
      bodyLines_ne_nil (i :: rest) (by simp) hwf
    have hnl : ∀ l ∈ bodyLines (i :: rest), '\n' ∉ l :=
      bodyLines_no_newline (i :: rest) hwf
    -- the first line of the body and its first character
    obtain ⟨l₁, hl₁⟩ : ∃ l₁, (renderItem i).head? = some l₁ := by
      cases hri : renderItem i with
      | nil => exact absurd hri hri_ne
      | cons a u => exact ⟨a, rfl⟩
    have hgood₁ := renderItem_good i hwf_i l₁ (mem_of_head?_eq _ _ hl₁)
    obtain ⟨c₁, hc₁⟩ : ∃ c, l₁.head? = some c := by
      cases hl : l₁ with
      | nil => exact absurd hl hgood₁.1
      | cons a u => exact ⟨a, rfl⟩
    -- the last line of the body and its last character
    obtain ⟨j, hjmem, hjlast⟩ := bodyLines_getLast? (i :: rest) (by simp) hwf
    have hrj_ne : renderItem j ≠ [] := renderItem_ne_nil j (hwf j hjmem)
    obtain ⟨l₂, hl₂⟩ := getLast?_some (renderItem j) hrj_ne
    have hgood₂ := renderItem_good j (hwf j hjmem) l₂ (mem_of_getLast?_eq _ _ hl₂)
    obtain ⟨c₂, hc₂⟩ := getLast?_some l₂ hgood₂.1
    -- the joined body and its edge characters
    obtain ⟨x, L', hL⟩ : ∃ x L', bodyLines (i :: rest) = x :: L' := by
      cases hL : bodyLines (i :: rest) with
      | nil => exact absurd hL hLne
      | cons x L' => exact ⟨x, L', rfl⟩
    have hxl : x = l₁ := by
      have := bodyLines_head? i rest hri_ne
      rw [hL, hl₁] at this
      simpa using this
    rw [hxl] at hL
    have hJhead : (joinLines (bodyLines (i :: rest))).head? = some c₁ := by
      rw [hL, head?_joinLines l₁ L' hgood₁.1, hc₁]
    have hJlast : (joinLines (bodyLines (i :: rest))).getLast? = some c₂ := by
      rw [getLast?_joinLines (bodyLines (i :: rest)) l₂ (by rw [hjlast, hl₂]) hgood₂.1, hc₂]
    have hJne : joinLines (bodyLines (i :: rest)) ≠ [] := by
      intro he
      rw [he] at hJhead
      simp at hJhead
    have hJedge : noEdgeWs (joinLines (bodyLines (i :: rest))) = true :=
      noEdgeWs_build _ c₁ c₂ hJhead hJlast
        (noEdgeWs_head l₁ hgood₁.2.1 c₁ hc₁)
        (noEdgeWs_last l₂ hgood₂.2.1 c₂ hc₂)
    -- the serializer produces exactly the joined body
    have e1 : convertContentToMarkdown (i :: rest)
        = joinLines (bodyLines (i :: rest)) := by
      unfold convertContentToMarkdown
      rw [renderAll_eq_bodyLines _ (by simp), joinLines_append_blank _ hLne]
      exact trimL_append_newline _ hJne hJedge
    have e2 : splitLines (joinLines (bodyLines (i :: rest))) = bodyLines (i :: rest) :=
      splitLines_joinLines _ hnl hLne
    show parseMarkdownToContent (convertContentToMarkdown (i :: rest)) = i :: rest
    unfold parseMarkdownToContent
    rw [e1, e2]
    have hrun := runBody (i :: rest) [] [] hwf hseq (Or.inl rfl)
    simpa [finishParse, flushList, initState, parseLines] using hrun

/-- C1 witness: the claim's concrete example round-trips through the amended
theorem (`[Heading(1,"A"), Paragraph("b")]` is well-formed and
adjacency-respecting). -/
theorem claim_C1_amended_roundtrip_witness :
    (∀ i ∈ ([.heading 1 ['A'], .paragraph ['b']] : List ContentItem), wfItem i = true) ∧
    seqOk [.heading 1 ['A'], .paragraph ['b']] = true ∧
    parseMarkdownToContent
        (convertContentToMarkdown [.heading 1 ['A'], .paragraph ['b']])
      = [.heading 1 ['A'], .paragraph ['b']] :=
  ⟨by decide, by decide,
    claim_C1_amended_roundtrip [.heading 1 ['A'], .paragraph ['b']]
      (by decide) (by decide)⟩

/-- C1 counterexample — the two-list sequence `[List["a"], List["b"]]` is
built only from supported constructs (each item is well-formed), yet
serializing and re-parsing it yields the single merged `[List["a","b"]]`:
more than blank-line separators is lost. -/
theorem claim_C1_counterexample :
    (∀ i ∈ ([.list [['a']], .list [['b']]] : List ContentItem), wfItem i = true) ∧
    parseMarkdownToContent
        (convertContentToMarkdown [.list [['a']], .list [['b']]])
      = [.list [['a'], ['b']]] ∧
    ([ContentItem.list [['a'], ['b']]] : List ContentItem)
      ≠ [.list [['a']], .list [['b']]] := by
  decide

end Filestack
